import Mathlib

/-!
Verification development for the body-recomposition pipeline
(`scripts/parse_logs.py`, `scripts/aggregate_protocol.py`,
`scripts/compute_plot_tdee.py`).

Python floats are modelled as rationals (`ℚ`); Python dicts built by
repeated assignment are modelled as lists of assignments in program order,
with lookup returning the value of the last assignment for a key, which is
exactly the semantics of `d[k] = v` followed by `d[k]`.
-/

/-- Reference food entry as stored in `data/foods.yaml`: display name, alias
list, and per-100g nutrition fields (absent YAML fields are read with
default 0 by `entry.get(..., 0)`, so the fields are total here). -/
structure FoodEntry where
  name : String
  aliases : List String
  kcal_per_100g : ℚ
  protein_g_per_100g : ℚ
  carbs_g_per_100g : ℚ
  fat_g_per_100g : ℚ
  deriving DecidableEq

/-- ASCII lowercasing (`str.lower` restricted to ASCII, which covers every
string the claims mention), implemented over the character list so that it
reduces in the kernel. -/
def pyLower (s : String) : String :=
  ⟨s.data.map Char.toLower⟩

/-- Whitespace in the sense of Python's `str.strip()` (ASCII scope). -/
def isPySpace (c : Char) : Bool :=
  c == ' ' || c == '\t' || c == '\n' || c == '\r' || c == '\x0b' || c == '\x0c'

/-- Python `str.strip()`: drop leading and trailing whitespace. -/
def pyStrip (s : String) : String :=
  ⟨((s.data.dropWhile isPySpace).reverse.dropWhile isPySpace).reverse⟩

/-- Split a character list at every delimiter character, keeping empty
pieces, as `re.split` with a single-character class does. -/
def splitChars (p : Char → Bool) : List Char → List (List Char)
  | [] => [[]]
  | c :: cs =>
    match splitChars p cs with
    | [] => [[]]
    | piece :: rest => if p c then [] :: piece :: rest else (c :: piece) :: rest

/-- Alias strings contributed by one food in `load_foods`: the declared
`aliases` list, then the slug itself, then the display name (the Python
code appends `slug` and `entry.get('name','')` to the alias list). -/
def extendedAliases (slug : String) (e : FoodEntry) : List String :=
  e.aliases ++ [slug, e.name]

/-- The `(key, slug)` dict assignments performed for one food: empty alias
strings are skipped (`if not a: continue`), the rest are lowercased. -/
def entryAssignments (slug : String) (e : FoodEntry) : List (String × String) :=
  (extendedAliases slug e).filterMap fun a =>
    if a = "" then none else some (pyLower a, slug)

/-- All dict assignments of `load_foods`, in the order the Python loop
performs them (foods in file/insertion order, aliases in list order). -/
def allAssignments (foods : List (String × FoodEntry)) : List (String × String) :=
  foods.foldl (fun acc p => acc ++ entryAssignments p.1 p.2) []

/-- Lookup in a dict built by a sequence of assignments: the last
assignment to the key wins (Python dict semantics). -/
def dictGet (assignments : List (String × String)) (k : String) : Option String :=
  assignments.foldl (fun acc p => if p.1 = k then some p.2 else acc) none

/-- The `slug_by_alias` mapping returned by `load_foods`. -/
def slug_by_alias (foods : List (String × FoodEntry)) (k : String) : Option String :=
  dictGet (allAssignments foods) k

/-- The `aliases_list` returned by `load_foods`:
`sorted(set(all_aliases))`. -/
def aliases_list (foods : List (String × FoodEntry)) : List String :=
  List.insertionSort (· ≤ ·) ((allAssignments foods).map Prod.fst).dedup

/-- The slug of the last-loaded food that declares alias key `k`
(after lowercasing and dropping empties): the specification side of the
conflict-resolution question. -/
def lastDeclarer (foods : List (String × FoodEntry)) (k : String) : Option String :=
  foods.foldl
    (fun acc p =>
      if k ∈ (entryAssignments p.1 p.2).map Prod.fst then some p.1 else acc)
    none

/-- The slug of the first-loaded food that declares alias key `k`: what the
spec sentence asserts the loader keeps on conflict. -/
def firstDeclarer (foods : List (String × FoodEntry)) (k : String) : Option String :=
  (foods.find? fun p => k ∈ (entryAssignments p.1 p.2).map Prod.fst).map Prod.fst

lemma dictGet_foldl (k : String) (ys : List (String × String)) (a : Option String) :
    ys.foldl (fun acc p => if p.1 = k then some p.2 else acc) a
      = if k ∈ ys.map Prod.fst then dictGet ys k else a := by
  induction ys generalizing a with
  | nil => simp [dictGet]
  | cons p ys ih =>
    have hcomm : (k = p.1) ↔ (p.1 = k) := eq_comm
    simp only [List.foldl_cons, dictGet, List.map_cons, List.mem_cons]
    rw [ih, ih]
    by_cases hm : k ∈ ys.map Prod.fst <;> by_cases hp : p.1 = k <;>
      simp [hm, hp, hcomm]

lemma dictGet_append (k : String) (xs ys : List (String × String)) :
    dictGet (xs ++ ys) k
      = if k ∈ ys.map Prod.fst then dictGet ys k else dictGet xs k := by
  unfold dictGet
  rw [List.foldl_append]
  exact dictGet_foldl k ys _

lemma dictGet_const_values (k v : String) (l : List (String × String))
    (hv : ∀ p ∈ l, p.2 = v) :
    dictGet l k = if k ∈ l.map Prod.fst then some v else none := by
  induction l with
  | nil => simp [dictGet]
  | cons p l ih =>
    have hp2 : p.2 = v := hv p (List.mem_cons_self p l)
    have hl : ∀ q ∈ l, q.2 = v := fun q hq => hv q (List.mem_cons_of_mem p hq)
    have hcomm : (k = p.1) ↔ (p.1 = k) := eq_comm
    simp only [dictGet, List.foldl_cons, List.map_cons, List.mem_cons]
    rw [dictGet_foldl]
    rw [ih hl]
    by_cases hm : k ∈ l.map Prod.fst <;> by_cases hpk : p.1 = k <;>
      simp [hm, hpk, hp2, hcomm]

lemma dictGet_entryAssignments (k s : String) (e : FoodEntry) :
    dictGet (entryAssignments s e) k
      = if k ∈ (entryAssignments s e).map Prod.fst then some s else none := by
  apply dictGet_const_values
  intro p hp
  simp only [entryAssignments, List.mem_filterMap] at hp
  obtain ⟨a, _, ha⟩ := hp
  by_cases h : a = ""
  · simp [h] at ha
  · rw [if_neg h] at ha
    have hps := Option.some.inj ha
    exact (congrArg Prod.snd hps).symm

lemma allAssignments_cons (f : String × FoodEntry) (fs : List (String × FoodEntry)) :
    allAssignments (f :: fs) = entryAssignments f.1 f.2 ++ allAssignments fs := by
  have key : ∀ (l : List (String × FoodEntry)) (a : List (String × String)),
      l.foldl (fun acc p => acc ++ entryAssignments p.1 p.2) a
        = a ++ l.foldl (fun acc p => acc ++ entryAssignments p.1 p.2) [] := by
    intro l
    induction l with
    | nil => intro a; simp
    | cons q l ih =>
      intro a
      simp only [List.foldl_cons]
      rw [ih (a ++ entryAssignments q.1 q.2), ih ([] ++ entryAssignments q.1 q.2)]
      simp [List.append_assoc]
  simp only [allAssignments, List.foldl_cons, List.nil_append]
  exact key fs (entryAssignments f.1 f.2)

lemma mem_allAssignments_keys (k : String) (fs : List (String × FoodEntry)) :
    k ∈ (allAssignments fs).map Prod.fst
      ↔ ∃ p ∈ fs, k ∈ (entryAssignments p.1 p.2).map Prod.fst := by
  induction fs with
  | nil => simp [allAssignments]
  | cons f fs ih =>
    rw [allAssignments_cons]
    simp only [List.map_append, List.mem_append, List.mem_cons, ih]
    constructor
    · rintro (h | ⟨p, hp, hk⟩)
      · exact ⟨f, Or.inl rfl, h⟩
      · exact ⟨p, Or.inr hp, hk⟩
    · rintro ⟨p, (rfl | hp), hk⟩
      · exact Or.inl hk
      · exact Or.inr ⟨p, hp, hk⟩

lemma lastDeclarer_foldl (k : String) (fs : List (String × FoodEntry))
    (a : Option String) :
    fs.foldl
        (fun acc p =>
          if k ∈ (entryAssignments p.1 p.2).map Prod.fst then some p.1 else acc) a
      = if (∃ p ∈ fs, k ∈ (entryAssignments p.1 p.2).map Prod.fst)
          then lastDeclarer fs k else a := by
  induction fs generalizing a with
  | nil => simp [lastDeclarer]
  | cons f fs ih =>
    simp only [List.foldl_cons, lastDeclarer, List.exists_mem_cons_iff]
    rw [ih, ih]
    by_cases hf : k ∈ (entryAssignments f.1 f.2).map Prod.fst <;>
      by_cases hm : ∃ p ∈ fs, k ∈ (entryAssignments p.1 p.2).map Prod.fst
    · rw [if_pos hm, if_pos (Or.inl hf), if_pos hm]
    · rw [if_neg hm, if_pos hf, if_pos (Or.inl hf), if_neg hm, if_pos hf]
    · rw [if_pos hm, if_pos (Or.inr hm), if_pos hm]
    · rw [if_neg hm, if_neg hf, if_neg (not_or.mpr ⟨hf, hm⟩)]

/-- On every alias key, the loader's map binds the slug of the LAST food
(in load order) declaring that alias: repeated `slug_by_alias[key] = slug`
overwrites. -/
lemma slug_by_alias_eq_lastDeclarer (foods : List (String × FoodEntry)) (k : String) :
    slug_by_alias foods k = lastDeclarer foods k := by
  induction foods with
  | nil => simp [slug_by_alias, allAssignments, dictGet, lastDeclarer]
  | cons f fs ih =>
    have ihx : dictGet (allAssignments fs) k = lastDeclarer fs k := ih
    simp only [slug_by_alias, allAssignments_cons, dictGet_append]
    simp only [lastDeclarer, List.foldl_cons]
    rw [lastDeclarer_foldl]
    exact if_congr (mem_allAssignments_keys k fs) ihx (dictGet_entryAssignments k f.1 f.2)

/-- Tokenization used by the token-match layer of `match_food`: split on
the character class of the regex `[ ,\-_/]+` (space, comma, hyphen,
underscore, slash), trim each piece, drop empties. -/
def splitTokens (key : String) : List String :=
  (((splitChars
        (fun c => c == ' ' || c == ',' || c == '-' || c == '_' || c == '/')
        key.data).map fun cs => pyStrip ⟨cs⟩).filter (· ≠ ""))

/-- Modelled from difflib's `get_close_matches`: keep the possibilities
whose three SequenceMatcher similarity ratios all reach the cutoff, order
them by ratio, largest first (`heapq.nlargest`), keep the first `n`, drop
the scores. The three ratio functions are abstract parameters of the
model; the theorems below depend only on results being drawn from
`possibilities`, never on ratio values. -/
def get_close_matches (ratio rquick quick : String → String → ℚ)
    (word : String) (possibilities : List String) (n : Nat) (cutoff : ℚ) :
    List String :=
  let scored :=
    (possibilities.filter fun x =>
        decide (cutoff ≤ rquick x word) && decide (cutoff ≤ quick x word) &&
          decide (cutoff ≤ ratio x word)).map
      fun x => (ratio x word, x)
  ((scored.insertionSort fun a b => b.1 ≤ a.1).take n).map Prod.snd

/-- Layered food-name resolution of `match_food` in `scripts/parse_logs.py`:
exact alias match (confidence 1.0), then tokens scanned from last to first
(0.9), then fuzzy match over the alias vocabulary (0.8), else
`(none, 0.0)`. -/
def match_food (ratio rquick quick : String → String → ℚ) (name : String)
    (sba : String → Option String) (aliasesList : List String)
    (threshold : ℚ) : Option String × ℚ :=
  let key := pyLower name
  match sba key with
  | some s => (some s, 1)
  | none =>
    match (splitTokens key).reverse.find? (fun t => (sba t).isSome) with
    | some t => (sba t, 9/10)
    | none =>
      match get_close_matches ratio rquick quick key aliasesList 3 threshold with
      | best :: _ => (sba best, 4/5)
      | [] => (none, 0)

lemma get_close_matches_subset {ratio rquick quick : String → String → ℚ}
    {w x : String} {poss : List String} {n : Nat} {c : ℚ}
    (h : x ∈ get_close_matches ratio rquick quick w poss n c) : x ∈ poss := by
  unfold get_close_matches at h
  simp only [List.mem_map] at h
  obtain ⟨p, hp, rfl⟩ := h
  have hp1 : p ∈ (((poss.filter fun x =>
      decide (c ≤ rquick x w) && decide (c ≤ quick x w) &&
        decide (c ≤ ratio x w)).map fun x => (ratio x w, x)).insertionSort
          fun a b => b.1 ≤ a.1) := List.take_subset n _ hp
  rw [List.mem_insertionSort] at hp1
  simp only [List.mem_map] at hp1
  obtain ⟨y, hy, rfl⟩ := hp1
  exact List.mem_of_mem_filter hy

lemma dict_foldl_isSome (k : String) (l : List (String × String))
    (a : Option String) (ha : a.isSome) :
    (l.foldl (fun acc p => if p.1 = k then some p.2 else acc) a).isSome := by
  induction l generalizing a with
  | nil => exact ha
  | cons p l ih =>
    simp only [List.foldl_cons]
    apply ih
    by_cases hp : p.1 = k
    · simp [hp]
    · simpa [hp] using ha

lemma dictGet_isSome_of_mem_keys (k : String) (l : List (String × String))
    (h : k ∈ l.map Prod.fst) : (dictGet l k).isSome := by
  induction l with
  | nil => simp at h
  | cons p l ih =>
    simp only [dictGet, List.foldl_cons]
    by_cases hp : p.1 = k
    · simp only [hp, if_pos rfl]
      exact dict_foldl_isSome k l (some p.2) rfl
    · simp only [if_neg hp]
      apply ih
      simp only [List.map_cons, List.mem_cons] at h
      rcases h with h | h
      · exact absurd h.symm hp
      · exact h

lemma aliases_list_isSome (foods : List (String × FoodEntry)) (a : String)
    (h : a ∈ aliases_list foods) : (slug_by_alias foods a).isSome := by
  unfold aliases_list at h
  rw [List.mem_insertionSort, List.mem_dedup] at h
  exact dictGet_isSome_of_mem_keys a (allAssignments foods) h

/-- Foods used by the C3 counterexample: two foods declare the same alias
string "shared"; the first-loaded one is `food_one`. -/
def c3Foods : List (String × FoodEntry) :=
  [("food_one",
    { name := "Food One", aliases := ["shared"], kcal_per_100g := 100,
      protein_g_per_100g := 1, carbs_g_per_100g := 2, fat_g_per_100g := 3 }),
   ("food_two",
    { name := "Food Two", aliases := ["shared"], kcal_per_100g := 200,
      protein_g_per_100g := 4, carbs_g_per_100g := 5, fat_g_per_100g := 6 })]

/-- C3 counterexample: the alias "shared" is declared by both foods; the
loader's map binds it to `food_two`, the LAST-loaded declarer, not to the
first-loaded `food_one` as the claim states, so later declarations do
overwrite the earlier binding. -/
theorem C3_counterexample :
    slug_by_alias c3Foods "shared" = some "food_two" ∧
    firstDeclarer c3Foods "shared" = some "food_one" ∧
    slug_by_alias c3Foods "shared" ≠ firstDeclarer c3Foods "shared" := by
  refine ⟨by decide, by decide, by decide⟩

/-- C3 (amended): for every alias key, the alias-to-identifier lookup built
by `load_foods` maps it to the identifier of the LAST-loaded food that
declared it — later declarations overwrite earlier bindings
(`slug_by_alias[key] = slug` runs unconditionally). -/
theorem C3_alias_conflict_last_wins (foods : List (String × FoodEntry))
    (k : String) : slug_by_alias foods k = lastDeclarer foods k :=
  slug_by_alias_eq_lastDeclarer foods k

/-- Drop one leading bullet marker and the whitespace after it, as
`re.sub(r'^[-\*]\s*', '', line)` does after the initial strip. -/
def stripBullet (cs : List Char) : List Char :=
  match cs with
  | [] => []
  | c :: rest => if c == '-' || c == '*' then rest.dropWhile isPySpace else c :: rest

/-- Greedy match of the number pattern `[0-9]+SEP?[0-9]*` at the head of the
input, where `SEP` ranges over `seps`; returns the matched characters and
the remainder, or `none` when the head is not a digit. -/
def numMatchAt (seps : List Char) (cs : List Char) : Option (List Char × List Char) :=
  match cs with
  | [] => none
  | c :: _ =>
    if c.isDigit then
      let d1 := cs.takeWhile Char.isDigit
      let r1 := cs.dropWhile Char.isDigit
      match r1 with
      | s :: r2 =>
        if seps.contains s then
          some (d1 ++ s :: r2.takeWhile Char.isDigit, r2.dropWhile Char.isDigit)
        else some (d1, r1)
      | [] => some (d1, [])
    else none

/-- Leftmost search for the number pattern (`re.search`): returns the text
before the match, the match, and the remainder. -/
def searchNumber (seps : List Char) : List Char → Option (List Char × List Char × List Char)
  | [] => none
  | c :: cs =>
    match numMatchAt seps (c :: cs) with
    | some (m, rest) => some ([], m, rest)
    | none =>
      match searchNumber seps cs with
      | some (pre, m, rest) => some (c :: pre, m, rest)
      | none => none

/-- Decimal value of a digit run. -/
def digitsToNat (ds : List Char) : Nat :=
  ds.foldl (fun n c => 10 * n + (c.toNat - 48)) 0

/-- Numeric value of a matched number string `D1` or `D1.D2` (`float()` on
the match; the conversion cannot fail on strings of this shape). -/
def numValue (m : List Char) : ℚ :=
  let d1 := m.takeWhile Char.isDigit
  let r := m.dropWhile Char.isDigit
  let d2 := r.drop 1
  (digitsToNat d1 : ℚ) + (digitsToNat d2 : ℚ) / (10 : ℚ) ^ d2.length

/-- The `to_number` helper of `scripts/parse_logs.py`: strip, turn commas
into dots, search for `[0-9]+\.?[0-9]*`, convert the match. -/
def to_number (s : String) : Option ℚ :=
  let t := (pyStrip s).data.map fun c => if c == ',' then '.' else c
  match searchNumber ['.'] t with
  | some (_, m, _) => some (numValue m)
  | none => none

/-- Continuation `\s+(?P<name>.+)$` of the food-line regex: at least one
whitespace character, then a non-empty name. `\s+` is greedy, so the name
starts at the first non-whitespace character; when only whitespace remains
it backtracks to leave one character for `.+`. -/
def tryWsPlus (cs : List Char) : Option (List Char) :=
  let w := cs.takeWhile isPySpace
  let rest := cs.dropWhile isPySpace
  if w.length = 0 then none
  else if rest.length = 0 then
    if 2 ≤ w.length then some (w.drop (w.length - 1)) else none
  else some rest

/-- Case-insensitive literal prefix (the pattern is compiled with `re.I`). -/
def dropCi (u : List Char) (cs : List Char) : Option (List Char) :=
  match u, cs with
  | [], rest => some rest
  | _ :: _, [] => none
  | a :: us, c :: cs' => if c.toLower == a then dropCi us cs' else none

/-- The `(?P<unit>g|gramm|g\.)?\s+(?P<name>.+)$` tail: regex alternation
tries `g`, `gramm`, `g.` in order, then the empty alternative, and each
alternative must be followed by a successful `\s+(.+)$`. -/
def tryUnitThenWs (cs : List Char) : Option (List Char) :=
  match (dropCi ['g'] cs).bind tryWsPlus with
  | some nm => some nm
  | none =>
    match (dropCi ['g', 'r', 'a', 'm', 'm'] cs).bind tryWsPlus with
    | some nm => some nm
    | none =>
      match (dropCi ['g', '.'] cs).bind tryWsPlus with
      | some nm => some nm
      | none => tryWsPlus cs

/-- The greedy `\s*` before the unit: try consuming `i` whitespace
characters, largest first, backtracking to shorter prefixes. -/
def tryFromWs : Nat → List Char → Option (List Char)
  | 0, cs => tryUnitThenWs cs
  | i + 1, cs =>
    match tryUnitThenWs (cs.drop (i + 1)) with
    | some nm => some nm
    | none => tryFromWs i cs

/-- Continuation of the primary pattern after the quantity. -/
def afterQty (cs : List Char) : Option (List Char) :=
  tryFromWs (cs.takeWhile isPySpace).length cs

/-- The primary food-line pattern
`^(?P<qty>[0-9]+[\.,]?[0-9]*)\s*(?P<unit>g|gramm|g\.)?\s+(?P<name>.+)$`.
Backtracking into the greedy quantity cannot rescue a failed continuation:
any shorter quantity leaves a digit or a separator at the continuation,
where the pattern requires whitespace or a gram unit, so matching the
quantity greedily once is faithful. -/
def parsePrimary (cs : List Char) : Option (List Char × List Char) :=
  match numMatchAt ['.', ','] cs with
  | some (qtyStr, rest) =>
    match afterQty rest with
    | some nm => some (qtyStr, nm)
    | none => none
  | none => none

/-- The `parse_food_line` function of `scripts/parse_logs.py`: strip the
line and a leading bullet, try the primary pattern (returning the literal
unit `'g'`), else fall back to the first number found anywhere with the
text after it as the name and no unit. -/
def parse_food_line (line : String) : Option (Option ℚ × Option String × String) :=
  let cs := stripBullet (pyStrip line).data
  match parsePrimary cs with
  | some (qtyStr, nm) => some (to_number ⟨qtyStr⟩, some "g", pyStrip ⟨nm⟩)
  | none =>
    match searchNumber ['.', ','] cs with
    | some (_, m, rest) =>
      let name := pyStrip ⟨rest⟩
      if name = "" then none else some (to_number ⟨m⟩, none, name)
    | none => none

/-- Per-day nutrient totals, the four keys produced by `compute_nutrients`. -/
structure Nutrients where
  kcal : ℚ
  protein_g : ℚ
  carbs_g : ℚ
  fat_g : ℚ
  deriving DecidableEq

/-- Round half to even at integer precision: the rounding of Python's
built-in `round`. For every value the pipeline rounds, the exact value is
never exactly half-way, so the tie-break branch is inert. -/
def roundHalfEven (q : ℚ) : ℤ :=
  if q - ⌊q⌋ < 1/2 then ⌊q⌋
  else if 1/2 < q - ⌊q⌋ then ⌊q⌋ + 1
  else if 2 ∣ ⌊q⌋ then ⌊q⌋ else ⌊q⌋ + 1

/-- Python `round(x, 2)`. -/
def round2 (q : ℚ) : ℚ :=
  (roundHalfEven (q * 100) : ℚ) / 100

/-- The `compute_nutrients` function of `scripts/parse_logs.py`:
`factor = (qty_g or 0) / 100.0`, each per-100g field scaled by the factor
and rounded to 2 decimals. -/
def compute_nutrients (qty : Option ℚ) (e : FoodEntry) : Nutrients :=
  let factor := qty.getD 0 / 100
  { kcal := round2 (e.kcal_per_100g * factor)
    protein_g := round2 (e.protein_g_per_100g * factor)
    carbs_g := round2 (e.carbs_g_per_100g * factor)
    fat_g := round2 (e.fat_g_per_100g * factor) }

/-- Lookup in the foods dict itself (`foods.get(slug)`). -/
def foodsGet (foods : List (String × FoodEntry)) (s : String) : Option FoodEntry :=
  foods.foldl (fun acc p => if p.1 = s then some p.2 else acc) none

/-- One record of the missing-foods list: file basename, trimmed raw line,
parsed food name. -/
structure MissingFoodEntry where
  file : String
  line : String
  name : String
  deriving DecidableEq

/-- Accumulator state of the body-line loop of `process_file`. -/
structure DayState where
  consumed : Nutrients
  missing : List MissingFoodEntry
  deriving DecidableEq

def addNutrients (a b : Nutrients) : Nutrients :=
  { kcal := a.kcal + b.kcal, protein_g := a.protein_g + b.protein_g,
    carbs_g := a.carbs_g + b.carbs_g, fat_g := a.fat_g + b.fat_g }

/-- One iteration of the body-line loop of `process_file`: skip blank and
unparseable lines, skip lines without a quantity, record unmatched names
(Python's `if not slug` also treats an empty slug as unmatched) and names
whose slug has no entry in the foods dict as missing, and otherwise
accumulate the computed nutrients. -/
def processLine (ratio rquick quick : String → String → ℚ)
    (foods : List (String × FoodEntry)) (basename : String)
    (st : DayState) (line : String) : DayState :=
  if pyStrip line = "" then st
  else
    match parse_food_line line with
    | none => st
    | some (qty, _unit, name) =>
      match qty with
      | none => st
      | some q =>
        match (match_food ratio rquick quick name (slug_by_alias foods)
            (aliases_list foods) (3/5)).1 with
        | none =>
          { st with missing := st.missing ++ [⟨basename, pyStrip line, name⟩] }
        | some slug =>
          if slug = "" then
            { st with missing := st.missing ++ [⟨basename, pyStrip line, name⟩] }
          else
            match foodsGet foods slug with
            | none =>
              { st with missing := st.missing ++ [⟨basename, pyStrip line, name⟩] }
            | some entry =>
              { st with consumed :=
                  addNutrients st.consumed (compute_nutrients (some q) entry) }

/-- The body-line loop of `process_file` over the content lines. -/
def processLines (ratio rquick quick : String → String → ℚ)
    (foods : List (String × FoodEntry)) (basename : String)
    (lines : List String) (st : DayState) : DayState :=
  lines.foldl (processLine ratio rquick quick foods basename) st

/-- The reference entry of the spec's end-to-end scenario. -/
def oatsEntry : FoodEntry :=
  { name := "oats", aliases := ["oats", "haferflocken"], kcal_per_100g := 389,
    protein_g_per_100g := 17, carbs_g_per_100g := 66, fat_g_per_100g := 7 }

/-- The one-food reference table of the spec's end-to-end scenario. -/
def oatsFoods : List (String × FoodEntry) := [("oats", oatsEntry)]

lemma roundHalfEven_intCast (n : ℤ) : roundHalfEven (n : ℚ) = n := by
  unfold roundHalfEven
  rw [Int.floor_intCast]
  norm_num

lemma round2_eq_of_mul_eq (q : ℚ) (n : ℤ) (h : q * 100 = (n : ℚ)) :
    round2 q = (n : ℚ) / 100 := by
  unfold round2
  rw [h, roundHalfEven_intCast]

lemma to_number_25 : to_number "25" = some 25 := by
  have h : searchNumber ['.'] ((pyStrip "25").data.map fun c => if c == ',' then '.' else c)
      = some ([], ['2', '5'], []) := by decide
  simp only [to_number, h]
  have h2 : digitsToNat ['2', '5'] = 25 := by decide
  simp [numValue, h2, digitsToNat]

/-- C7: for every resolved food line with quantity `q` grams matched to
reference food `f`, the per-line contribution to each nutrient equals
`round(f.nutrient_per_100g * q / 100, 2)`; in particular the body line
"25 g oats" against the spec's oats entry parses to quantity 25 with name
"oats" and contributes kcal 97.25 and protein_g 4.25. -/
theorem C7_nutrient_scaling :
    (∀ (q : ℚ) (e : FoodEntry),
        (compute_nutrients (some q) e).kcal = round2 (e.kcal_per_100g * q / 100) ∧
        (compute_nutrients (some q) e).protein_g
          = round2 (e.protein_g_per_100g * q / 100) ∧
        (compute_nutrients (some q) e).carbs_g
          = round2 (e.carbs_g_per_100g * q / 100) ∧
        (compute_nutrients (some q) e).fat_g
          = round2 (e.fat_g_per_100g * q / 100)) ∧
    parse_food_line "25 g oats" = some (some 25, some "g", "oats") ∧
    (compute_nutrients (some 25) oatsEntry).kcal = 9725 / 100 ∧
    (compute_nutrients (some 25) oatsEntry).protein_g = 425 / 100 := by
  refine ⟨fun q e => ?_, ?_, ?_, ?_⟩
  · unfold compute_nutrients
    simp only [Option.getD_some]
    refine ⟨?_, ?_, ?_, ?_⟩ <;> rw [mul_div_assoc]
  · have h : parse_food_line "25 g oats" = some (to_number "25", some "g", "oats") := rfl
    rw [h, to_number_25]
  · have h1 : (compute_nutrients (some 25) oatsEntry).kcal
        = round2 (389 * ((25 : ℚ) / 100)) := by
      simp [compute_nutrients, oatsEntry]
    rw [h1, round2_eq_of_mul_eq _ 9725 (by norm_num)]
    norm_num
  · have h1 : (compute_nutrients (some 25) oatsEntry).protein_g
        = round2 (17 * ((25 : ℚ) / 100)) := by
      simp [compute_nutrients, oatsEntry]
    rw [h1, round2_eq_of_mul_eq _ 425 (by norm_num)]
    norm_num

/-- C10: every line matched by the primary food-line pattern yields the
literal unit string 'g', whatever gram spelling (or none) the line used;
the quantity is the parsed leading number and the name the stripped
remainder. The fallback path is the only one returning no unit. -/
theorem C10_primary_unit_is_g (line : String) (qtyStr nm : List Char)
    (h : parsePrimary (stripBullet (pyStrip line).data) = some (qtyStr, nm)) :
    parse_food_line line = some (to_number ⟨qtyStr⟩, some "g", pyStrip ⟨nm⟩) := by
  simp only [parse_food_line, h]

/-- C10 witness: "2 eggs" has no unit token at all, yet parses through the
primary pattern to quantity 2, unit 'g', name "eggs". -/
theorem C10_witness :
    parse_food_line "2 eggs" = some (some 2, some "g", "eggs") := by
  have h := C10_primary_unit_is_g "2 eggs" ['2'] "eggs".data (by decide)
  rw [h]
  have h2 : to_number ⟨['2']⟩ = some 2 := by
    have hs : searchNumber ['.']
        ((pyStrip ⟨['2']⟩).data.map fun c => if c == ',' then '.' else c)
        = some ([], ['2'], []) := by decide
    simp only [to_number, hs]
    have hd : digitsToNat ['2'] = 2 := by decide
    simp [numValue, hd, digitsToNat]
  rw [h2]
  rfl

lemma parse_food_line_blank (line : String) (h : pyStrip line = "") :
    parse_food_line line = none := by
  simp only [parse_food_line, h]
  rfl

/-- C8: a parsed food line whose name resolves to nothing
(`match_food` returns `(none, 0.0)`) appends exactly one missing-food
record carrying the file basename, the trimmed raw line and the parsed
name, leaves every nutrient total unchanged, and processing of the
remaining lines continues. -/
theorem C8_unresolved_line_accounting
    (ratio rquick quick : String → String → ℚ)
    (foods : List (String × FoodEntry)) (basename line : String)
    (rest : List String) (st : DayState) (q : ℚ) (u : Option String)
    (name : String)
    (hparse : parse_food_line line = some (some q, u, name))
    (hmatch : match_food ratio rquick quick name (slug_by_alias foods)
        (aliases_list foods) (3/5) = (none, 0)) :
    processLines ratio rquick quick foods basename (line :: rest) st
      = processLines ratio rquick quick foods basename rest
          { consumed := st.consumed,
            missing := st.missing ++ [⟨basename, pyStrip line, name⟩] } := by
  have hstrip : ¬ (pyStrip line = "") := by
    intro hh
    rw [parse_food_line_blank line hh] at hparse
    exact Option.noConfusion hparse
  unfold processLines
  simp only [List.foldl_cons]
  congr 1
  unfold processLine
  rw [if_neg hstrip]
  simp only [hparse, hmatch]

/-- Ratio functions used to instantiate the abstract difflib similarity in
witnesses; with these, no candidate ever clears a positive cutoff. -/
def zeroRatio : String → String → ℚ := fun _ _ => 0

lemma get_close_matches_zeroRatio (w : String) (poss : List String) (n : Nat)
    (c : ℚ) (hc : ¬ c ≤ 0) :
    get_close_matches zeroRatio zeroRatio zeroRatio w poss n c = [] := by
  have hb : decide (c ≤ (0:ℚ)) = false := decide_eq_false hc
  simp [get_close_matches, zeroRatio, hb]

/-- C8 witness: the line "25 g dragonfruit" against the oats-only table
produces exactly one missing entry and leaves the totals untouched. -/
theorem C8_witness :
    processLines zeroRatio zeroRatio zeroRatio oatsFoods "2024-01-01.md"
        ["25 g dragonfruit"] ⟨⟨0, 0, 0, 0⟩, []⟩
      = ⟨⟨0, 0, 0, 0⟩,
          [⟨"2024-01-01.md", "25 g dragonfruit", "dragonfruit"⟩]⟩ := by
  have hparse : parse_food_line "25 g dragonfruit"
      = some (some (numValue ['2', '5']), some "g", "dragonfruit") := rfl
  have hmatch : match_food zeroRatio zeroRatio zeroRatio "dragonfruit"
      (slug_by_alias oatsFoods) (aliases_list oatsFoods) (3/5) = (none, 0) := by
    have h1 : slug_by_alias oatsFoods (pyLower "dragonfruit") = none := by decide
    have h2 : (splitTokens (pyLower "dragonfruit")).reverse.find?
        (fun t => (slug_by_alias oatsFoods t).isSome) = none := by decide
    have h3 := get_close_matches_zeroRatio (pyLower "dragonfruit")
      (aliases_list oatsFoods) 3 (3/5) (by norm_num)
    simp only [match_food, h1, h2, h3]
  have h := C8_unresolved_line_accounting zeroRatio zeroRatio zeroRatio
    oatsFoods "2024-01-01.md" "25 g dragonfruit" [] ⟨⟨0, 0, 0, 0⟩, []⟩
    (numValue ['2', '5']) (some "g") "dragonfruit" hparse hmatch
  rw [h]
  rfl

/-- Reference table for the C6 witness: one food whose aliases contain
"vollkornreis", and no alias equal to the full test string. -/
def c6Foods : List (String × FoodEntry) :=
  [("vollkornreis",
    { name := "Vollkornreis", aliases := ["vollkornreis"], kcal_per_100g := 350,
      protein_g_per_100g := 7, carbs_g_per_100g := 70, fat_g_per_100g := 2 })]

/-- C6: when the lowercased name has no exact alias binding but some token
(scanning the tokenization from the last token to the first) is bound in
the alias map, `match_food` returns that token's binding with confidence
exactly 0.9, bypassing the approximate-match layer. -/
theorem C6_token_match_confidence (ratio rquick quick : String → String → ℚ)
    (foods : List (String × FoodEntry)) (name t : String) (threshold : ℚ)
    (h1 : slug_by_alias foods (pyLower name) = none)
    (h2 : (splitTokens (pyLower name)).reverse.find?
        (fun s => (slug_by_alias foods s).isSome) = some t) :
    match_food ratio rquick quick name (slug_by_alias foods)
        (aliases_list foods) threshold = (slug_by_alias foods t, 9/10) := by
  simp only [match_food, h1, h2]

/-- C6 witness: "Uncle Bens Vollkornreis" against a table containing only
the alias "vollkornreis" resolves by its last token at confidence 0.9. -/
theorem C6_witness :
    match_food zeroRatio zeroRatio zeroRatio "Uncle Bens Vollkornreis"
        (slug_by_alias c6Foods) (aliases_list c6Foods) (3/5)
      = (some "vollkornreis", 9/10) := by
  have h := C6_token_match_confidence zeroRatio zeroRatio zeroRatio c6Foods
    "Uncle Bens Vollkornreis" "vollkornreis" (3/5) (by decide) (by decide)
  rw [h]
  have hv : slug_by_alias c6Foods "vollkornreis" = some "vollkornreis" := by decide
  rw [hv]

/-- C9: for every name and every index built by `load_foods`, the
confidence returned by `match_food` is one of 0, 0.8, 0.9, 1, and the
identifier is `none` exactly when the confidence is 0 — in particular the
approximate layer always resolves, because every string of the fuzzy
vocabulary is a key of the alias map. -/
theorem C9_confidence_levels (ratio rquick quick : String → String → ℚ)
    (foods : List (String × FoodEntry)) (name : String) (threshold : ℚ) :
    ((match_food ratio rquick quick name (slug_by_alias foods)
          (aliases_list foods) threshold).2 = 0 ∨
      (match_food ratio rquick quick name (slug_by_alias foods)
          (aliases_list foods) threshold).2 = 4/5 ∨
      (match_food ratio rquick quick name (slug_by_alias foods)
          (aliases_list foods) threshold).2 = 9/10 ∨
      (match_food ratio rquick quick name (slug_by_alias foods)
          (aliases_list foods) threshold).2 = 1) ∧
    ((match_food ratio rquick quick name (slug_by_alias foods)
          (aliases_list foods) threshold).1 = none ↔
      (match_food ratio rquick quick name (slug_by_alias foods)
          (aliases_list foods) threshold).2 = 0) := by
  simp only [match_food]
  cases hk : slug_by_alias foods (pyLower name) with
  | some s =>
    refine ⟨by simp, by simp⟩
  | none =>
    cases ht : (splitTokens (pyLower name)).reverse.find?
        (fun t => (slug_by_alias foods t).isSome) with
    | some t =>
      have hs : (slug_by_alias foods t).isSome := by
        have hp := List.find?_some ht
        simpa using hp
      obtain ⟨v, hv⟩ := Option.isSome_iff_exists.mp hs
      refine ⟨by simp, ?_⟩
      simp only [hv]
      constructor
      · intro hcon
        exact Option.noConfusion hcon
      · intro hcon
        norm_num at hcon
    | none =>
      cases hg : get_close_matches ratio rquick quick (pyLower name)
          (aliases_list foods) 3 threshold with
      | nil => exact ⟨Or.inl rfl, by simp⟩
      | cons best restl =>
        have hmem : best ∈ aliases_list foods :=
          get_close_matches_subset (hg ▸ List.mem_cons_self best restl)
        obtain ⟨v, hv⟩ :=
          Option.isSome_iff_exists.mp (aliases_list_isSome foods best hmem)
        refine ⟨by simp, ?_⟩
        simp only [hv]
        constructor
        · intro hcon
          exact Option.noConfusion hcon
        · intro hcon
          norm_num at hcon

/-- Quote characters stripped by `s.strip('"\'')`. -/
def isQuote (c : Char) : Bool :=
  c == '"' || c == '\''

/-- Python `s.strip('"\'')`: drop leading and trailing quote characters. -/
def stripQuotes (s : String) : String :=
  ⟨((s.data.dropWhile isQuote).reverse.dropWhile isQuote).reverse⟩

/-- Take exactly `n` characters when they are all digits. -/
def takeDigits (n : Nat) (cs : List Char) : Option (List Char × List Char) :=
  let d := cs.take n
  if d.length = n ∧ d.all Char.isDigit then some (d, cs.drop n) else none

/-- The minutes part `(?P<m>\d{1,2})$`: greedy, so two digits before one. -/
def matchTimeAfterColon (cs : List Char) : Option Nat :=
  match takeDigits 2 cs with
  | some (d, []) => some (digitsToNat d)
  | _ =>
    match takeDigits 1 cs with
    | some (d, []) => some (digitsToNat d)
    | _ => none

def matchTimeFrom (hn : Nat) (cs : List Char) : Option (Nat × Nat) :=
  match takeDigits hn cs with
  | some (d, ':' :: rest) =>
    (matchTimeAfterColon rest).map fun m => (digitsToNat d, m)
  | _ => none

/-- The time pattern `^(?P<h>\d{1,2}):(?P<m>\d{1,2})$` of `normalize_value`:
the greedy `\d{1,2}` for hours tries two digits, then backtracks to one. -/
def matchTime (cs : List Char) : Option (Nat × Nat) :=
  match matchTimeFrom 2 cs with
  | some r => some r
  | none => matchTimeFrom 1 cs

/-- Decimal digit characters of a natural number (fuel-based so the kernel
can evaluate it; callers pass `n + 1` as fuel). -/
def natStrAux : Nat → Nat → List Char
  | 0, _ => []
  | fuel + 1, n =>
    if n < 10 then [Char.ofNat (48 + n)]
    else natStrAux fuel (n / 10) ++ [Char.ofNat (48 + n % 10)]

def natStr (n : Nat) : String :=
  ⟨natStrAux (n + 1) n⟩

/-- Python `str(int(...))`. -/
def intStr (i : ℤ) : String :=
  if i < 0 then "-" ++ natStr i.natAbs else natStr i.natAbs

/-- Python `f"{x:.2f}"`: sign, integer part, dot, exactly two zero-padded
fractional digits, rounding the exact value half-to-even at the second
decimal (a tie cannot occur for any value this pipeline formats). -/
def formatTwoDec (q : ℚ) : String :=
  let n := roundHalfEven (q * 100)
  let a := n.natAbs
  (if n < 0 then "-" else "") ++ natStr (a / 100) ++ "." ++
    ⟨[Char.ofNat (48 + a % 100 / 10), Char.ofNat (48 + a % 100 % 10)]⟩

/-- Python `str(round(f, 2))` for a float that rounds to at most two
decimals: shortest decimal representation, so trailing zeros are dropped
and a whole value shows one `.0` digit. -/
def pyRound2Repr (f : ℚ) : String :=
  let n := roundHalfEven (f * 100)
  let a := n.natAbs
  (if n < 0 then "-" else "") ++
    (if a % 100 = 0 then natStr (a / 100) ++ ".0"
     else if a % 100 % 10 = 0 then natStr (a / 100) ++ "." ++ natStr (a % 100 / 10)
     else natStr (a / 100) ++ "." ++
       ⟨[Char.ofNat (48 + a % 100 / 10), Char.ofNat (48 + a % 100 % 10)]⟩)

/-- The unit class `[%a-zA-Z]`. -/
def isUnitChar (c : Char) : Bool :=
  c == '%' || c.isAlpha

/-- The optional tail `(?:\s*(?P<unit>[%a-zA-Z]+))?$` after the number:
either the end of the string, or optional whitespace followed by a
non-empty run of unit characters reaching the end. -/
def numTailOk (rest : List Char) : Bool :=
  match rest with
  | [] => true
  | _ =>
    let u := rest.dropWhile isPySpace
    !u.isEmpty && u.all isUnitChar

/-- The number pattern `(?P<num>[+-]?[0-9]+[\.,]?[0-9]*)` matched at the
current position, its value, requiring `numTailOk` afterwards. As with the
food-line pattern, backtracking into the greedy digit runs cannot rescue a
failed tail (it would leave a digit or separator where the tail needs
whitespace, a unit letter or the end), so greedy matching is faithful. -/
def matchNumTail (cs : List Char) : Option ℚ :=
  let signed : Bool × List Char :=
    match cs with
    | '+' :: r => (false, r)
    | '-' :: r => (true, r)
    | _ => (false, cs)
  let d1 := signed.2.takeWhile Char.isDigit
  let r1 := signed.2.dropWhile Char.isDigit
  if d1.length = 0 then none
  else
    let frac : List Char × List Char :=
      match r1 with
      | c :: r2 =>
        if c == '.' || c == ',' then (r2.takeWhile Char.isDigit, r2.dropWhile Char.isDigit)
        else ([], r1)
      | [] => ([], [])
    if numTailOk frac.2 then
      let a : ℚ := (digitsToNat d1 : ℚ) + (digitsToNat frac.1 : ℚ) / 10 ^ frac.1.length
      some (if signed.1 then -a else a)
    else none

/-- The lazy prefix `^[^0-9+-]*?` of the number pattern: try to match the
number at each position from the left, stepping only over characters
outside `[0-9+-]`. -/
def matchNum : List Char → Option ℚ
  | [] => none
  | c :: cs =>
    match matchNumTail (c :: cs) with
    | some q => some q
    | none =>
      if c.isDigit || c == '+' || c == '-' then none
      else matchNum cs

/-- The `normalize_value` function of `scripts/aggregate_protocol.py`:
empty to empty, surrounding quotes stripped, `H:MM` to decimal hours
(integer string when whole within 1e-9, else two decimals), numbers with
optional unit to bare numbers (integer string when whole within 1e-9, else
rounded to 2 decimals), anything else returned unchanged. -/
def normalize_value (v : Option String) : String :=
  match v with
  | none => ""
  | some v0 =>
    let s := pyStrip v0
    if s = "" then ""
    else
      let s1 := stripQuotes s
      match matchTime s1.data with
      | some hm =>
        let dec : ℚ := (hm.1 : ℚ) + (hm.2 : ℚ) / 60
        if |dec - (roundHalfEven dec : ℚ)| < 1/1000000000 then
          intStr (roundHalfEven dec)
        else formatTwoDec dec
      | none =>
        match matchNum s1.data with
        | some f =>
          if |f - (roundHalfEven f : ℚ)| < 1/1000000000 then
            intStr (roundHalfEven f)
          else pyRound2Repr f
        | none => s1

lemma char_digit_toNat (r : Nat) (h : r < 10) :
    (Char.ofNat (48 + r)).toNat = 48 + r := by
  interval_cases r <;> decide

lemma char_digit_isDigit (r : Nat) (h : r < 10) :
    (Char.ofNat (48 + r)).isDigit = true := by
  interval_cases r <;> decide

lemma digitsToNat_append_single (ds : List Char) (c : Char) :
    digitsToNat (ds ++ [c]) = 10 * digitsToNat ds + (c.toNat - 48) := by
  simp [digitsToNat, List.foldl_append]

lemma natStrAux_spec (fuel : Nat) : ∀ n, n < fuel →
    (∀ c ∈ natStrAux fuel n, c.isDigit = true) ∧
    digitsToNat (natStrAux fuel n) = n ∧ natStrAux fuel n ≠ [] := by
  induction fuel with
  | zero => intro n h; exact absurd h (Nat.not_lt_zero n)
  | succ fuel ih =>
    intro n h
    by_cases h10 : n < 10
    · refine ⟨?_, ?_, ?_⟩
      · intro c hc
        simp only [natStrAux, if_pos h10, List.mem_singleton] at hc
        subst hc
        exact char_digit_isDigit n h10
      · simp only [natStrAux, if_pos h10]
        have := char_digit_toNat n h10
        simp [digitsToNat, this]
      · simp [natStrAux, if_pos h10]
    · have hdiv : n / 10 < fuel := by
        have h1 : n / 10 < n := Nat.div_lt_self (by omega) (by norm_num)
        omega
      obtain ⟨hd, hv, hne⟩ := ih (n / 10) hdiv
      have hmod : n % 10 < 10 := Nat.mod_lt _ (by norm_num)
      refine ⟨?_, ?_, ?_⟩
      · intro c hc
        simp only [natStrAux, if_neg h10, List.mem_append, List.mem_singleton] at hc
        rcases hc with hc | hc
        · exact hd c hc
        · subst hc
          exact char_digit_isDigit _ hmod
      · simp only [natStrAux, if_neg h10]
        rw [digitsToNat_append_single, hv, char_digit_toNat _ hmod]
        omega
      · simp [natStrAux, if_neg h10]

lemma natStr_digits (n : Nat) : ∀ c ∈ (natStr n).data, c.isDigit = true :=
  (natStrAux_spec (n + 1) n (Nat.lt_succ_self n)).1

lemma natStr_val (n : Nat) : digitsToNat (natStr n).data = n :=
  (natStrAux_spec (n + 1) n (Nat.lt_succ_self n)).2.1

lemma natStr_ne_nil (n : Nat) : (natStr n).data ≠ [] :=
  (natStrAux_spec (n + 1) n (Nat.lt_succ_self n)).2.2

lemma pyspace_not_digit (c : Char) (h : isPySpace c = true) : c.isDigit = false := by
  simp only [isPySpace, Bool.or_eq_true, beq_iff_eq] at h
  rcases h with ((((rfl | rfl) | rfl) | rfl) | rfl) | rfl <;> decide

lemma digit_not_pyspace (c : Char) (h : c.isDigit = true) : isPySpace c = false := by
  cases hs : isPySpace c
  · rfl
  · rw [pyspace_not_digit c hs] at h
    exact Bool.noConfusion h

lemma dropWhile_eq_self_of_all {α : Type} (p : α → Bool) (l : List α)
    (h : ∀ c ∈ l, p c = false) : l.dropWhile p = l := by
  cases l with
  | nil => rfl
  | cons c tl =>
    rw [List.dropWhile_cons, h c (List.mem_cons_self c tl)]
    simp

lemma takeWhile_eq_self_of_all {α : Type} (p : α → Bool) (l : List α)
    (h : ∀ c ∈ l, p c = true) : l.takeWhile p = l := by
  induction l with
  | nil => rfl
  | cons c tl ih =>
    rw [List.takeWhile_cons, h c (List.mem_cons_self c tl)]
    simp [ih fun x hx => h x (List.mem_cons_of_mem c hx)]

lemma dropWhile_eq_nil_of_all {α : Type} (p : α → Bool) (l : List α)
    (h : ∀ c ∈ l, p c = true) : l.dropWhile p = [] := by
  induction l with
  | nil => rfl
  | cons c tl ih =>
    rw [List.dropWhile_cons, h c (List.mem_cons_self c tl)]
    simpa using ih fun x hx => h x (List.mem_cons_of_mem c hx)

lemma pyStrip_of_no_space (cs : List Char) (h : ∀ c ∈ cs, isPySpace c = false) :
    pyStrip ⟨cs⟩ = ⟨cs⟩ := by
  unfold pyStrip
  rw [dropWhile_eq_self_of_all _ _ h]
  rw [dropWhile_eq_self_of_all _ _ fun c hc => h c (List.mem_reverse.mp hc)]
  rw [List.reverse_reverse]

lemma map_comma_eq_self (cs : List Char) (h : ∀ c ∈ cs, (c == ',') = false) :
    cs.map (fun c => if c == ',' then '.' else c) = cs := by
  induction cs with
  | nil => rfl
  | cons c tl ih =>
    have hc : (c == ',') = false := h c (List.mem_cons_self c tl)
    have hstep : (if c == ',' then '.' else c) = c := by simp [hc]
    rw [List.map_cons, hstep, ih fun x hx => h x (List.mem_cons_of_mem c hx)]

lemma digit_ne_comma (c : Char) (h : c.isDigit = true) : (c == ',') = false := by
  by_cases hb : c = ','
  · subst hb; exact absurd h (by decide)
  · simp [hb]

lemma takeWhile_append_of_head {p : Char → Bool} (d r : List Char)
    (hd : ∀ c ∈ d, p c = true) (hr : ∀ c, r.head? = some c → p c = false) :
    (d ++ r).takeWhile p = d ∧ (d ++ r).dropWhile p = r := by
  induction d with
  | nil =>
    cases r with
    | nil => exact ⟨rfl, rfl⟩
    | cons c tl =>
      have hc := hr c rfl
      rw [List.nil_append]
      constructor
      · rw [List.takeWhile_cons, hc]; simp
      · rw [List.dropWhile_cons, hc]; simp
  | cons a d ih =>
    have ha : p a = true := hd a (List.mem_cons_self a d)
    obtain ⟨iht, ihd⟩ := ih fun c hc => hd c (List.mem_cons_of_mem a hc)
    constructor
    · rw [List.cons_append, List.takeWhile_cons, ha]
      simp [iht]
    · rw [List.cons_append, List.dropWhile_cons, ha]
      simp [ihd]

lemma to_number_digits (d : List Char) (hne : d ≠ [])
    (hd : ∀ c ∈ d, c.isDigit = true) :
    to_number ⟨d⟩ = some ((digitsToNat d : ℚ)) := by
  have hnsp : ∀ c ∈ d, isPySpace c = false := fun c hc => digit_not_pyspace c (hd c hc)
  have hcm : ∀ c ∈ d, (c == ',') = false := fun c hc => digit_ne_comma c (hd c hc)
  simp only [to_number, pyStrip_of_no_space d hnsp]
  rw [map_comma_eq_self d hcm]
  cases d with
  | nil => exact absurd rfl hne
  | cons c tl =>
    have hc : c.isDigit = true := hd c (List.mem_cons_self c tl)
    have htk := takeWhile_eq_self_of_all Char.isDigit (c :: tl) hd
    have hdr := dropWhile_eq_nil_of_all Char.isDigit (c :: tl) hd
    simp only [searchNumber, numMatchAt, hc, if_pos, htk, hdr]
    simp only [numValue, htk, hdr]
    simp [digitsToNat]

lemma searchNumber_dotted (d1 d2 : List Char) (h1 : d1 ≠ [])
    (hd1 : ∀ c ∈ d1, c.isDigit = true) (hd2 : ∀ c ∈ d2, c.isDigit = true) :
    searchNumber ['.'] (d1 ++ '.' :: d2) = some ([], d1 ++ '.' :: d2, []) := by
  cases d1 with
  | nil => exact absurd rfl h1
  | cons c tl =>
    have hc : c.isDigit = true := hd1 c (List.mem_cons_self c tl)
    obtain ⟨htk, hdr⟩ := takeWhile_append_of_head (c :: tl) ('.' :: d2) hd1
      (fun x hx => by cases hx; decide)
    have htk2 := takeWhile_eq_self_of_all Char.isDigit d2 hd2
    have hdr2 := dropWhile_eq_nil_of_all Char.isDigit d2 hd2
    rw [List.cons_append] at htk hdr ⊢
    simp [searchNumber, numMatchAt, hc, htk, hdr, htk2, hdr2]

lemma to_number_dotted (d1 d2 : List Char) (h1 : d1 ≠ [])
    (hd1 : ∀ c ∈ d1, c.isDigit = true) (hd2 : ∀ c ∈ d2, c.isDigit = true) :
    to_number ⟨d1 ++ '.' :: d2⟩
      = some ((digitsToNat d1 : ℚ) + (digitsToNat d2 : ℚ) / 10 ^ d2.length) := by
  have hall : ∀ c ∈ d1 ++ '.' :: d2, isPySpace c = false := by
    intro c hc
    rcases List.mem_append.mp hc with hc | hc
    · exact digit_not_pyspace c (hd1 c hc)
    · rcases List.mem_cons.mp hc with rfl | hc
      · decide
      · exact digit_not_pyspace c (hd2 c hc)
  have hcm : ∀ c ∈ d1 ++ '.' :: d2, (c == ',') = false := by
    intro c hc
    rcases List.mem_append.mp hc with hc | hc
    · exact digit_ne_comma c (hd1 c hc)
    · rcases List.mem_cons.mp hc with rfl | hc
      · decide
      · exact digit_ne_comma c (hd2 c hc)
  simp only [to_number, pyStrip_of_no_space _ hall]
  rw [map_comma_eq_self _ hcm]
  rw [searchNumber_dotted d1 d2 h1 hd1 hd2]
  obtain ⟨htk, hdr⟩ := takeWhile_append_of_head d1 ('.' :: d2) hd1
    (fun x hx => by cases hx; decide)
  simp only [numValue, htk, hdr]
  simp

lemma to_number_natStr (k : Nat) : to_number (natStr k) = some ((k : ℕ) : ℚ) := by
  have h := to_number_digits (natStr k).data (natStr_ne_nil k) (natStr_digits k)
  rw [natStr_val] at h
  exact h

lemma roundHalfEven_nonneg (q : ℚ) (h : 0 ≤ q) : 0 ≤ roundHalfEven q := by
  have hf : 0 ≤ ⌊q⌋ := Int.floor_nonneg.mpr h
  unfold roundHalfEven
  split
  · exact hf
  · split
    · omega
    · split <;> omega

lemma round2_intCast (n : ℤ) : round2 ((n : ℚ)) = (n : ℚ) := by
  unfold round2
  have h : (n : ℚ) * 100 = ((n * 100 : ℤ) : ℚ) := by push_cast; ring
  rw [h, roundHalfEven_intCast]
  push_cast
  rw [mul_div_assoc]
  norm_num

lemma time_whole (hh mm : Nat) (n : ℤ)
    (habs : |((hh : ℚ) + (mm : ℚ) / 60) - (n : ℚ)| < 1/1000000000) :
    ((hh : ℚ) + (mm : ℚ) / 60) = (n : ℚ) := by
  have key : ((hh : ℚ) + (mm : ℚ) / 60) - (n : ℚ)
      = ((60 * hh + mm - 60 * n : ℤ) : ℚ) / 60 := by push_cast; ring
  rw [key] at habs
  rw [abs_div, abs_of_pos (by norm_num : (0:ℚ) < 60)] at habs
  have hlt : |((60 * hh + mm - 60 * n : ℤ) : ℚ)| < 1 := by linarith
  rw [← Int.cast_abs] at hlt
  have hint : |(60 * hh + mm - 60 * n : ℤ)| < 1 := by exact_mod_cast hlt
  have hz : (60 * (hh:ℤ) + mm - 60 * n : ℤ) = 0 := by
    rcases abs_lt.mp hint with ⟨hl, hr⟩
    omega
  have : ((hh : ℚ) + (mm : ℚ) / 60) - (n : ℚ) = 0 := by
    rw [key]
    rw [show (60 * (hh:ℤ) + mm - 60 * n : ℤ) = 0 from hz]
    norm_num
  linarith

lemma normalize_value_time (v : String) (hh mm : Nat)
    (hs : pyStrip v ≠ "")
    (hmt : matchTime (stripQuotes (pyStrip v)).data = some (hh, mm)) :
    normalize_value (some v)
      = (if |((hh:ℚ) + (mm:ℚ)/60) - (roundHalfEven ((hh:ℚ) + (mm:ℚ)/60) : ℚ)|
            < 1/1000000000
        then intStr (roundHalfEven ((hh:ℚ) + (mm:ℚ)/60))
        else formatTwoDec ((hh:ℚ) + (mm:ℚ)/60)) := by
  simp only [normalize_value, hmt, if_neg hs]

lemma eval_730 : normalize_value (some "7:30") = "7.50" := by
  have hs : pyStrip "7:30" ≠ "" := by decide
  have hmt : matchTime (stripQuotes (pyStrip "7:30")).data = some (7, 30) := by decide
  rw [normalize_value_time "7:30" 7 30 hs hmt]
  have hdec : ((7:ℕ):ℚ) + ((30:ℕ):ℚ)/60 = 15/2 := by push_cast; norm_num
  have hfl : ⌊(15/2 : ℚ)⌋ = 7 := Int.floor_eq_iff.mpr (by norm_num)
  have hre : roundHalfEven (((7:ℕ):ℚ) + ((30:ℕ):ℚ)/60) = 8 := by
    rw [hdec]
    unfold roundHalfEven
    rw [hfl]
    norm_num
  rw [hre, hdec]
  have habs : |(15:ℚ)/2 - ((8:ℤ) : ℚ)| = 1/2 := by
    rw [show (15:ℚ)/2 - ((8:ℤ) : ℚ) = -(1/2) by push_cast; ring]
    rw [abs_neg, abs_of_pos]
    norm_num
  rw [if_neg (by rw [habs]; norm_num)]
  have h100 : (15/2 : ℚ) * 100 = ((750 : ℤ) : ℚ) := by norm_num
  unfold formatTwoDec
  rw [h100, roundHalfEven_intCast]
  decide

lemma eval_645 : normalize_value (some "6:45") = "6.75" := by
  have hs : pyStrip "6:45" ≠ "" := by decide
  have hmt : matchTime (stripQuotes (pyStrip "6:45")).data = some (6, 45) := by decide
  rw [normalize_value_time "6:45" 6 45 hs hmt]
  have hdec : ((6:ℕ):ℚ) + ((45:ℕ):ℚ)/60 = 27/4 := by push_cast; norm_num
  have hfl : ⌊(27/4 : ℚ)⌋ = 6 := Int.floor_eq_iff.mpr (by norm_num)
  have hre : roundHalfEven (((6:ℕ):ℚ) + ((45:ℕ):ℚ)/60) = 7 := by
    rw [hdec]
    unfold roundHalfEven
    rw [hfl]
    norm_num
  rw [hre, hdec]
  have habs : |(27:ℚ)/4 - ((7:ℤ) : ℚ)| = 1/4 := by
    rw [show (27:ℚ)/4 - ((7:ℤ) : ℚ) = -(1/4) by push_cast; ring]
    rw [abs_neg, abs_of_pos]
    norm_num
  rw [if_neg (by rw [habs]; norm_num)]
  have h100 : (27/4 : ℚ) * 100 = ((675 : ℤ) : ℚ) := by norm_num
  unfold formatTwoDec
  rw [h100, roundHalfEven_intCast]
  decide

/-- C4 counterexample: the code formats "7:30" with `f"{dec:.2f}"`, which
keeps both fractional digits, so the output is "7.50", not the "7.5" the
claim (and the spec example) states. -/
theorem C4_counterexample :
    normalize_value (some "7:30") = "7.50" ∧ ("7.50" : String) ≠ "7.5" :=
  ⟨eval_730, by decide⟩

lemma data_append (a b : String) : (a ++ b).data = a.data ++ b.data := by
  cases a
  cases b
  rfl

lemma to_number_formatTwoDec (q : ℚ) (h0 : 0 ≤ roundHalfEven (q * 100)) :
    to_number (formatTwoDec q) = some (round2 q) := by
  simp only [formatTwoDec]
  set N := roundHalfEven (q * 100) with hN
  set a := N.natAbs with haDef
  rw [if_neg (not_lt.mpr h0)]
  have hd10 : a % 100 / 10 < 10 := by omega
  have hm10 : a % 100 % 10 < 10 := by omega
  have hdata : ("" ++ natStr (a / 100) ++ "." ++
      (⟨[Char.ofNat (48 + a % 100 / 10), Char.ofNat (48 + a % 100 % 10)]⟩ : String))
      = (⟨(natStr (a / 100)).data ++
          '.' :: [Char.ofNat (48 + a % 100 / 10), Char.ofNat (48 + a % 100 % 10)]⟩ : String) := by
    have hd : ("" ++ natStr (a / 100) ++ "." ++
        (⟨[Char.ofNat (48 + a % 100 / 10), Char.ofNat (48 + a % 100 % 10)]⟩ : String)).data
        = (natStr (a / 100)).data ++
            '.' :: [Char.ofNat (48 + a % 100 / 10), Char.ofNat (48 + a % 100 % 10)] := by
      simp [data_append]
    calc ("" ++ natStr (a / 100) ++ "." ++
        (⟨[Char.ofNat (48 + a % 100 / 10), Char.ofNat (48 + a % 100 % 10)]⟩ : String))
        = ⟨("" ++ natStr (a / 100) ++ "." ++
            (⟨[Char.ofNat (48 + a % 100 / 10), Char.ofNat (48 + a % 100 % 10)]⟩ : String)).data⟩ := rfl
      _ = _ := congrArg String.mk hd
  rw [hdata]
  rw [to_number_dotted _ _ (natStr_ne_nil _) (natStr_digits _) ?hdig]
  case hdig =>
    intro c hc
    rcases List.mem_cons.mp hc with rfl | hc
    · exact char_digit_isDigit _ hd10
    · rcases List.mem_cons.mp hc with rfl | hc
      · exact char_digit_isDigit _ hm10
      · cases hc
  congr 1
  rw [natStr_val]
  have hds : digitsToNat [Char.ofNat (48 + a % 100 / 10), Char.ofNat (48 + a % 100 % 10)]
      = a % 100 := by
    simp only [digitsToNat, List.foldl_cons, List.foldl_nil,
      char_digit_toNat _ hd10, char_digit_toNat _ hm10]
    omega
  rw [hds]
  unfold round2
  rw [← hN]
  have habs : (a : ℤ) = N := Int.natAbs_of_nonneg h0
  have hNa : ((N : ℤ) : ℚ) = ((a : ℕ) : ℚ) := by
    rw [← habs]
    push_cast
    ring
  rw [hNa]
  have hsplit : ((a : ℕ) : ℚ) = ((100 * (a / 100) + a % 100 : ℕ) : ℚ) := by
    exact_mod_cast congrArg (fun n : ℕ => (n : ℚ)) (Nat.div_add_mod a 100).symm
  rw [hsplit]
  simp only [List.length_cons, List.length_nil]
  push_cast
  ring

/-- C4 (amended): for every header value whose stripped form matches
`H:MM`/`HH:MM`, the normalized output re-parsed as a number equals
`H + M/60` rounded to 2 decimals, a whole result (within 1e-9) is emitted
as an integer string, and on the spec's examples the outputs are "7.50"
(not "7.5") for "7:30", and "6.75" for "6:45". -/
theorem C4_time_normalization (v : String) (hh mm : Nat)
    (hs : pyStrip v ≠ "")
    (hmt : matchTime (stripQuotes (pyStrip v)).data = some (hh, mm)) :
    to_number (normalize_value (some v))
        = some (round2 ((hh : ℚ) + (mm : ℚ) / 60)) ∧
    normalize_value (some "7:30") = "7.50" ∧
    normalize_value (some "6:45") = "6.75" := by
  refine ⟨?_, eval_730, eval_645⟩
  rw [normalize_value_time v hh mm hs hmt]
  by_cases hw : |((hh:ℚ) + (mm:ℚ)/60)
      - (roundHalfEven ((hh:ℚ) + (mm:ℚ)/60) : ℚ)| < 1/1000000000
  · rw [if_pos hw]
    have hdec := time_whole hh mm (roundHalfEven ((hh:ℚ) + (mm:ℚ)/60)) hw
    have hn0 : 0 ≤ roundHalfEven ((hh:ℚ) + (mm:ℚ)/60) :=
      roundHalfEven_nonneg _ (by positivity)
    have hstr : intStr (roundHalfEven ((hh:ℚ) + (mm:ℚ)/60))
        = natStr (roundHalfEven ((hh:ℚ) + (mm:ℚ)/60)).natAbs := by
      unfold intStr
      rw [if_neg (not_lt.mpr hn0)]
    rw [hstr, to_number_natStr]
    conv_rhs => rw [hdec, round2_intCast]
    congr 1
    rw [Int.cast_natAbs]
    exact_mod_cast abs_of_nonneg hn0
  · rw [if_neg hw]
    exact to_number_formatTwoDec _ (roundHalfEven_nonneg _ (by positivity))

/-- C4 witness: the theorem applied at "6:45" (hours 6, minutes 45). -/
theorem C4_witness :
    to_number (normalize_value (some "6:45"))
        = some (round2 (((6:ℕ) : ℚ) + ((45:ℕ) : ℚ) / 60)) ∧
    normalize_value (some "7:30") = "7.50" ∧
    normalize_value (some "6:45") = "6.75" :=
  C4_time_normalization "6:45" 6 45 (by decide) (by decide)

/-- Does `pat` occur at the head of `cs`? -/
def startsWithChars : List Char → List Char → Bool
  | [], _ => true
  | _ :: _, [] => false
  | p :: ps, c :: cs => p == c && startsWithChars ps cs

/-- Python `str.replace(pat, rep)` for a non-empty pattern: replace every
non-overlapping occurrence, scanning left to right (fuel-based for kernel
evaluation; callers pass the input length). -/
def replaceFuel (pat rep : List Char) : Nat → List Char → List Char
  | 0, cs => cs
  | _ + 1, [] => []
  | n + 1, c :: cs =>
    if startsWithChars pat (c :: cs) then
      rep ++ replaceFuel pat rep n ((c :: cs).drop pat.length)
    else c :: replaceFuel pat rep n cs

def pyReplace (s pat rep : String) : String :=
  ⟨replaceFuel pat.data rep.data s.data.length s.data⟩

/-- POSIX `os.path.basename`: the part after the last slash. -/
def basename (path : String) : String :=
  ⟨(path.data.reverse.takeWhile fun c => !(c == '/')).reverse⟩

/-- The date taken by `process_file` in `scripts/parse_logs.py`
(line `date = meta.get('date') or os.path.basename(path).replace('.md', '')`):
a falsy header date (absent or empty) falls back to the whole basename with
every ".md" removed — whatever that basename is. -/
def parse_logs_date (metaDate : Option String) (path : String) : String :=
  match metaDate with
  | some d => if d = "" then pyReplace (basename path) ".md" "" else d
  | none => pyReplace (basename path) ".md" ""

/-- One position of the pattern `(\d{4}-\d{2}-\d{2})`: fixed length, no
internal backtracking. -/
def dateAt (cs : List Char) : Option (List Char) :=
  match cs with
  | a :: b :: c :: d :: '-' :: e :: f :: '-' :: g :: h :: _ =>
    if a.isDigit && b.isDigit && c.isDigit && d.isDigit && e.isDigit &&
        f.isDigit && g.isDigit && h.isDigit then
      some [a, b, c, d, '-', e, f, '-', g, h]
    else none
  | _ => none

/-- Leftmost `re.search` of `(\d{4}-\d{2}-\d{2})`. -/
def findDateSub : List Char → Option (List Char)
  | [] => none
  | c :: cs =>
    match dateAt (c :: cs) with
    | some m => some m
    | none => findDateSub cs

/-- The `YYYY-MM-DD` substring of the relative path, or empty. -/
def dateSubstrOrEmpty (rel : String) : String :=
  match findDateSub rel.data with
  | some m => ⟨m⟩
  | none => ""

/-- The `parsed_date` computed by `gather_protocol_metas` in
`scripts/aggregate_protocol.py`: the normalized header date when present
and non-empty, else the first `YYYY-MM-DD` substring of the relative path,
else empty (the date key is then left unset). -/
def protocol_parsed_date (normalizedDate : Option String) (rel : String) : String :=
  match normalizedDate with
  | some d => if d = "" then dateSubstrOrEmpty rel else d
  | none => dateSubstrOrEmpty rel

/-- C5 counterexample: for the file "notes.md" with no header date, the
DayRecord producer `process_file` sets the date to "notes" — filename-
derived text that is neither a `YYYY-MM-DD` substring of the path (none
exists) nor empty, contradicting the claim. -/
theorem C5_counterexample :
    parse_logs_date none "notes.md" = "notes" ∧
    findDateSub "notes.md".data = none ∧
    parse_logs_date none "notes.md" ≠ "" :=
  ⟨by decide, by decide, by decide⟩

/-- C5 (amended): with no resolvable header date, `process_file` (the
DayRecord producer) sets the date to the file basename with every ".md"
removed — recovering `YYYY-MM-DD` for date-named files but otherwise
arbitrary text, never empty-by-policy; it is the protocol-table aggregator
`gather_protocol_metas` that recovers a `YYYY-MM-DD` substring from the
path and otherwise leaves the date empty. -/
theorem C5_date_resolution :
    (∀ (md : Option String) (path : String), (md = none ∨ md = some "") →
        parse_logs_date md path = pyReplace (basename path) ".md" "") ∧
    (∀ (nd : Option String) (rel : String), (nd = none ∨ nd = some "") →
        protocol_parsed_date nd rel = dateSubstrOrEmpty rel) ∧
    parse_logs_date none "2025-01-15.md" = "2025-01-15" ∧
    protocol_parsed_date none "protocol/2025-01-15.md" = "2025-01-15" := by
  refine ⟨?_, ?_, by decide, by decide⟩
  · rintro md path (rfl | rfl)
    · rfl
    · simp [parse_logs_date]
  · rintro nd rel (rfl | rfl)
    · rfl
    · simp [protocol_parsed_date]

/-- C5 witness: the amended resolution applied to concrete files. -/
theorem C5_witness :
    parse_logs_date none "notes2.md" = pyReplace (basename "notes2.md") ".md" "" ∧
    protocol_parsed_date none "protocol/week1/log.md" = "" := by
  constructor
  · exact C5_date_resolution.1 none "notes2.md" (Or.inl rfl)
  · have h := C5_date_resolution.2.1 none "protocol/week1/log.md" (Or.inl rfl)
    rw [h]
    decide

/-- One rolling estimate row of `compute_tdee` in
`scripts/compute_plot_tdee.py`. Days are indices into the continuous daily
calendar spanning the corpus; `date` is the window-end day, `window_start`
and `window_end` the days of the first and last weight observations, as
the code stores them. -/
structure Estimate where
  date : ℕ
  tdee : ℚ
  window_start : ℕ
  window_end : ℕ
  mean_cal : ℚ
  delta_w : ℚ
  days : ℕ
  deriving DecidableEq

/-- Calendar days of the trailing window `[d - (window_days-1), d]`,
clipped to the corpus range `[0, N)` exactly as the label slice
`df_full.loc[start:end]` clips. -/
def windowIdx (w N d : ℕ) : List ℕ :=
  (List.range N).filter fun i =>
    decide ((d : ℤ) - ((w : ℤ) - 1) ≤ (i : ℤ)) && decide (i ≤ d)

/-- Non-null weight observations in the window, in day order, with their
days (`window["weight"].dropna()`). -/
def wObs (weight : ℕ → Option ℚ) (w N d : ℕ) : List (ℕ × ℚ) :=
  (windowIdx w N d).filterMap fun i => (weight i).map fun x => (i, x)

/-- Non-null intake observations in the window
(`window["actual_calories"].dropna()`). -/
def acObs (intake : ℕ → Option ℚ) (w N d : ℕ) : List ℚ :=
  (windowIdx w N d).filterMap fun i => intake i

/-- The body of the per-day loop of `compute_tdee`: emit an estimate for
window end `d` when the window holds at least two weight observations and
one intake observation and the day span of the weight observations is
positive; the span is never negative, so the code's `days <= 0` test is a
zero test here. -/
def estimateAt (weight intake : ℕ → Option ℚ) (w N d : ℕ) : Option Estimate :=
  let ws := wObs weight w N d
  let ac := acObs intake w N d
  if 2 ≤ ws.length ∧ 1 ≤ ac.length then
    let fd := (ws.headD (0, 0)).1
    let ld := (ws.getLastD (0, 0)).1
    let days := ld - fd
    if days = 0 then none
    else
      let delta_w := (ws.getLastD (0, 0)).2 - (ws.headD (0, 0)).2
      let mean_cal := ac.sum / (ac.length : ℚ)
      some { date := d, tdee := mean_cal - delta_w * 7700 / (days : ℚ),
             window_start := fd, window_end := ld, mean_cal := mean_cal,
             delta_w := delta_w, days := days }
  else none

/-- The `compute_tdee` loop over every day of the continuous calendar
(the smoothing column added afterwards does not change which rows exist
nor their point estimates). -/
def compute_tdee (weight intake : ℕ → Option ℚ) (N w : ℕ) : List Estimate :=
  (List.range N).filterMap (estimateAt weight intake w N)

lemma estimateAt_date (weight intake : ℕ → Option ℚ) (w N d : ℕ) (e : Estimate)
    (h : estimateAt weight intake w N d = some e) : e.date = d := by
  simp only [estimateAt] at h
  split at h
  · split at h
    · exact Option.noConfusion h
    · have he := Option.some.inj h
      rw [← he]
  · exact Option.noConfusion h

lemma estimateAt_isSome (weight intake : ℕ → Option ℚ) (w N d : ℕ) :
    (estimateAt weight intake w N d).isSome ↔
      (2 ≤ (wObs weight w N d).length ∧ 1 ≤ (acObs intake w N d).length ∧
        0 < ((wObs weight w N d).getLastD (0, 0)).1
            - ((wObs weight w N d).headD (0, 0)).1) := by
  simp only [estimateAt]
  by_cases h1 : 2 ≤ (wObs weight w N d).length ∧ 1 ≤ (acObs intake w N d).length
  · rw [if_pos h1]
    by_cases h2 : ((wObs weight w N d).getLastD (0, 0)).1
        - ((wObs weight w N d).headD (0, 0)).1 = 0
    · rw [if_pos h2]
      refine iff_of_false (by simp) ?_
      rintro ⟨_, _, hc⟩
      omega
    · rw [if_neg h2]
      exact iff_of_true (by simp) ⟨h1.1, h1.2, Nat.pos_of_ne_zero h2⟩
  · rw [if_neg h1]
    refine iff_of_false (by simp) ?_
    rintro ⟨ha, hb, _⟩
    exact h1 ⟨ha, hb⟩

/-- C1: an estimate with window end `d` exists in the output exactly when
the trailing window ending at `d` holds at least two weight observations
and at least one intake observation and the weight observations span a
positive number of days; every other day is skipped, so the output is
sparse. -/
theorem C1_window_gating (weight intake : ℕ → Option ℚ) (N w d : ℕ)
    (hd : d < N) :
    (∃ e ∈ compute_tdee weight intake N w, e.date = d) ↔
      (2 ≤ (wObs weight w N d).length ∧ 1 ≤ (acObs intake w N d).length ∧
        0 < ((wObs weight w N d).getLastD (0, 0)).1
            - ((wObs weight w N d).headD (0, 0)).1) := by
  rw [← estimateAt_isSome weight intake w N d]
  constructor
  · rintro ⟨e, he, hdate⟩
    simp only [compute_tdee, List.mem_filterMap] at he
    obtain ⟨a, _, hfa⟩ := he
    have hea := estimateAt_date weight intake w N a e hfa
    have had : a = d := hea.symm.trans hdate
    rw [← had]
    simp [hfa]
  · intro hsome
    obtain ⟨e, he⟩ := Option.isSome_iff_exists.mp hsome
    exact ⟨e, List.mem_filterMap.mpr ⟨d, List.mem_range.mpr hd, he⟩,
      estimateAt_date weight intake w N d e he⟩

/-- Corpus of the spec's window-gating example: weights on days 0 and 1,
one intake on day 1, two calendar days. -/
def tdeeWeight : ℕ → Option ℚ :=
  fun i => if i = 0 then some 80 else if i = 1 then some 79 else none

def tdeeIntake : ℕ → Option ℚ :=
  fun i => if i = 1 then some 1800 else none

/-- C1 witness: with `window_days = 14`, an estimate is emitted for day 1
of the two-day corpus. -/
theorem C1_witness :
    ∃ e ∈ compute_tdee tdeeWeight tdeeIntake 2 14, e.date = 1 :=
  (C1_window_gating tdeeWeight tdeeIntake 2 14 1 (by norm_num)).mpr (by decide)

lemma estimateAt_tdee (weight intake : ℕ → Option ℚ) (w N d : ℕ) (e : Estimate)
    (h : estimateAt weight intake w N d = some e) :
    e.tdee = (acObs intake w N d).sum / ((acObs intake w N d).length : ℚ)
      - (((wObs weight w N d).getLastD (0, 0)).2
          - ((wObs weight w N d).headD (0, 0)).2) * 7700
        / ((((wObs weight w N d).getLastD (0, 0)).1
            - ((wObs weight w N d).headD (0, 0)).1 : ℕ) : ℚ) := by
  simp only [estimateAt] at h
  split at h
  · split at h
    · exact Option.noConfusion h
    · have he := Option.some.inj h
      rw [← he]
  · exact Option.noConfusion h

/-- C2: every emitted estimate's point TDEE equals the mean of the intake
observations in its trailing window minus the weight delta between the
last and first weight observations times 7700 divided by their day span. -/
theorem C2_tdee_formula (weight intake : ℕ → Option ℚ) (N w : ℕ)
    (e : Estimate) (he : e ∈ compute_tdee weight intake N w) :
    e.tdee = (acObs intake w N e.date).sum
        / ((acObs intake w N e.date).length : ℚ)
      - (((wObs weight w N e.date).getLastD (0, 0)).2
          - ((wObs weight w N e.date).headD (0, 0)).2) * 7700
        / ((((wObs weight w N e.date).getLastD (0, 0)).1
            - ((wObs weight w N e.date).headD (0, 0)).1 : ℕ) : ℚ) := by
  simp only [compute_tdee, List.mem_filterMap] at he
  obtain ⟨a, _, hfa⟩ := he
  have hda := estimateAt_date weight intake w N a e hfa
  rw [hda]
  exact estimateAt_tdee weight intake w N a e hfa

/-- The estimate emitted for day 1 of the witness corpus. -/
def tdeeEst : Estimate :=
  (estimateAt tdeeWeight tdeeIntake 14 2 1).getD
    ⟨0, 0, 0, 0, 0, 0, 0⟩

/-- C2 witness: the formula instantiated on the two-day corpus. -/
theorem C2_witness :
    tdeeEst.tdee = (acObs tdeeIntake 14 2 tdeeEst.date).sum
        / ((acObs tdeeIntake 14 2 tdeeEst.date).length : ℚ)
      - (((wObs tdeeWeight 14 2 tdeeEst.date).getLastD (0, 0)).2
          - ((wObs tdeeWeight 14 2 tdeeEst.date).headD (0, 0)).2) * 7700
        / ((((wObs tdeeWeight 14 2 tdeeEst.date).getLastD (0, 0)).1
            - ((wObs tdeeWeight 14 2 tdeeEst.date).headD (0, 0)).1 : ℕ) : ℚ) := by
  have hmem : tdeeEst ∈ compute_tdee tdeeWeight tdeeIntake 2 14 := by
    rw [show compute_tdee tdeeWeight tdeeIntake 2 14 = [tdeeEst] from rfl]
    exact List.mem_singleton_self tdeeEst
  exact C2_tdee_formula tdeeWeight tdeeIntake 2 14 tdeeEst hmem
